import Mathlib

/-!
Verification of the sequence-indexed memory layer of the llama.cpp fork
COG-GTM/llama.cpp: the State I/O codec (length-prefixed string fields),
the Recurrent State Cache ledger operations, and the batch splitter.

The repository sources available here are the test drivers; where a tested
implementation file is absent, the corresponding definition is modelled
from the specification text and marked as such in its doc comment.
-/

namespace StateCodec

/-- Little-endian 4-byte encoding of a natural number (low byte first),
as used for the length field written by `write_string`. -/
def le32 (n : Nat) : List Nat :=
  [n % 256, n / 256 % 256, n / 65536 % 256, n / 16777216 % 256]

/-- Decode a 4-byte little-endian field; any list that is not exactly
4 bytes decodes to 0 (`read_string` only ever applies this to a 4-byte take). -/
def decode32 (bs : List Nat) : Nat :=
  match bs with
  | [b0, b1, b2, b3] => b0 + 256 * (b1 + 256 * (b2 + 256 * b3))
  | _ => 0

/-- Modelled from the spec: `llama_io_write_i::write_string` (implementation
file `llama-io.cpp` is absent from the sources; only its test driver is
present). Writes a 4-byte little-endian unsigned length field followed by
the raw bytes of the string, with no null terminator. A string is a list of
byte values. -/
def write_string (s : List Nat) : List Nat :=
  le32 s.length ++ s

/-- Modelled from the spec: `llama_io_read_i::read_string` (implementation
file `llama-io.cpp` is absent from the sources). Reads the 4-byte length
field, then that many bytes; rejects (returns `none` for) a stream too short
for the length field or a length field exceeding the remaining stream
length. On success returns the string together with the unconsumed rest of
the stream. -/
def read_string (st : List Nat) : Option (List Nat × List Nat) :=
  if st.length < 4 then none
  else
    let n := decode32 (st.take 4)
    let rest := st.drop 4
    if rest.length < n then none
    else some (rest.take n, rest.drop n)

theorem le32_length (n : Nat) : (le32 n).length = 4 := rfl

theorem decode32_le32 (n : Nat) (h : n < 4294967296) : decode32 (le32 n) = n := by
  simp only [le32, decode32]
  omega

theorem write_string_length (s : List Nat) : (write_string s).length = 4 + s.length := by
  simp [write_string, le32]
  omega

end StateCodec

/-- C1: for every string (byte list) whose length fits the 4-byte length
field, writing it with `write_string` and then reading the produced stream
with `read_string` yields exactly the original string with the whole stream
consumed (empty remainder, so the bytes read equal the bytes written),
including the empty string and strings holding null bytes or arbitrary
byte values. -/
theorem write_read_string_roundtrip (s : List Nat) (h : s.length < 4294967296) :
    StateCodec.read_string (StateCodec.write_string s) = some (s, []) ∧
    (StateCodec.write_string s).length = 4 + s.length := by
  constructor
  · unfold StateCodec.read_string
    have hlen : (StateCodec.write_string s).length = 4 + s.length :=
      StateCodec.write_string_length s
    rw [if_neg (by omega)]
    have htake : (StateCodec.write_string s).take 4 = StateCodec.le32 s.length := by
      unfold StateCodec.write_string
      exact List.take_left' (StateCodec.le32_length s.length)
    have hdrop : (StateCodec.write_string s).drop 4 = s := by
      unfold StateCodec.write_string
      exact List.drop_left' (StateCodec.le32_length s.length)
    simp only [htake, hdrop, StateCodec.decode32_le32 s.length h]
    rw [if_neg (by omega)]
    simp
  · exact StateCodec.write_string_length s

/-- Witness for C1 at a concrete binary string holding an embedded null
byte and a high byte value. -/
theorem write_read_string_roundtrip_witness :
    StateCodec.read_string (StateCodec.write_string [104, 0, 255]) = some ([104, 0, 255], []) ∧
    (StateCodec.write_string [104, 0, 255]).length = 4 + ([104, 0, 255] : List Nat).length :=
  write_read_string_roundtrip [104, 0, 255] (by decide)

/-- C2: `write_string` emits exactly 4 + size bytes: a 4-byte little-endian
length field whose decoded value equals the string size (and whose first
emitted byte is the least significant byte of the size), immediately
followed by the raw bytes of the string with no terminator; the empty
string emits exactly the 4 zero bytes. -/
theorem write_string_format (s : List Nat) (h : s.length < 4294967296) :
    (StateCodec.write_string s).length = 4 + s.length ∧
    StateCodec.decode32 ((StateCodec.write_string s).take 4) = s.length ∧
    (StateCodec.write_string s).drop 4 = s ∧
    (StateCodec.write_string s).headD 0 = s.length % 256 ∧
    (s = [] → StateCodec.write_string s = [0, 0, 0, 0]) := by
  refine ⟨StateCodec.write_string_length s, ?_, ?_, ?_, ?_⟩
  · rw [show (StateCodec.write_string s).take 4 = StateCodec.le32 s.length from
      List.take_left' (StateCodec.le32_length s.length)]
    exact StateCodec.decode32_le32 s.length h
  · exact List.drop_left' (StateCodec.le32_length s.length)
  · simp [StateCodec.write_string, StateCodec.le32]
  · rintro rfl
    rfl

/-- Witness for C2 at a concrete string and at the empty string. -/
theorem write_string_format_witness :
    ((StateCodec.write_string [7, 0, 200]).length = 4 + ([7, 0, 200] : List Nat).length ∧
     StateCodec.decode32 ((StateCodec.write_string [7, 0, 200]).take 4) = ([7, 0, 200] : List Nat).length ∧
     (StateCodec.write_string [7, 0, 200]).drop 4 = [7, 0, 200] ∧
     (StateCodec.write_string [7, 0, 200]).headD 0 = ([7, 0, 200] : List Nat).length % 256 ∧
     (([7, 0, 200] : List Nat) = [] → StateCodec.write_string [7, 0, 200] = [0, 0, 0, 0])) ∧
    StateCodec.write_string [] = [0, 0, 0, 0] :=
  ⟨write_string_format [7, 0, 200] (by decide),
   (write_string_format [] (by decide)).2.2.2.2 rfl⟩

namespace RecMem

/-- One ledger cell/slot: the logical position it holds and the list of
sequence ids currently referencing it (empty list = free slot). -/
structure RCell where
  pos : Int
  seqs : List Int
  deriving DecidableEq, Repr

/-- A free slot: no referencing sequence, position reset to -1. -/
def freeCell : RCell := { pos := -1, seqs := [] }

/-- Modelled from the spec: the bookkeeping state of `llama_memory_recurrent`
(implementation file `llama-memory-recurrent.cpp` is absent from the
sources; only its test driver is present). `size` is the fixed slot
capacity, `cells` the slot ledger, `used` the occupancy counter, `head` the
next free-scan cursor, `n` the number of slots in the current batch view,
and `rs_z` the slot reserved as the shared zero-state template (-1 when
none is reserved). -/
structure RState where
  size : Nat
  cells : List RCell
  used : Nat
  head : Nat
  n : Nat
  rs_z : Int
  n_seq_max : Nat
  deriving DecidableEq, Repr

/-- Does the cell reference sequence `q`? -/
def refsSeq (c : RCell) (q : Int) : Bool :=
  decide (q ∈ c.seqs)

/-- Does the cell match the sequence argument `q`, where a negative `q` is
the "all sequences" wildcard matching every occupied cell? -/
def cellMatches (c : RCell) (q : Int) : Bool :=
  if q < 0 then !c.seqs.isEmpty else refsSeq c q

/-- Position range test for `[p0, p1)` where a negative bound is the
open-started / open-ended wildcard. -/
def inRange (pos p0 p1 : Int) : Bool :=
  (decide (p0 < 0) || decide (p0 ≤ pos)) && (decide (p1 < 0) || decide (pos < p1))

/-- Remove sequence `q` from a cell (for the wildcard, free the cell
entirely); a cell left with no referencing sequence is reset to a free
slot. -/
def cellRemove (c : RCell) (q : Int) : RCell :=
  if q < 0 then freeCell
  else if (c.seqs.filter (fun x => decide (x ≠ q))).isEmpty then freeCell
  else { c with seqs := c.seqs.filter (fun x => decide (x ≠ q)) }

/-- Number of occupied (non-free) slots in a cell list. -/
def countOccupied (cs : List RCell) : Nat :=
  cs.countP (fun c => !c.seqs.isEmpty)

/-- A cell targeted by a removal request: it matches the sequence argument
and its position lies in the requested range. -/
def rmHit (q p0 p1 : Int) (c : RCell) : Bool :=
  cellMatches c q && inRange c.pos p0 p1

/-- A cell that matches the sequence argument but lies outside the
requested range — its presence makes the removal a proper sub-range
request. -/
def rmMiss (q p0 p1 : Int) (c : RCell) : Bool :=
  cellMatches c q && !inRange c.pos p0 p1

/-- Modelled from the spec: constructor of `llama_memory_recurrent` with
slot capacity `mem_size` and per-instance sequence bound `n_seq_max`; all
slots start free, the occupancy counter and scan cursor start at zero, and
no slot is reserved yet as the shared zero-state template (`rs_z = -1`). -/
def mkRecurrent (mem_size n_seq_max : Nat) : RState :=
  { size := mem_size
    cells := List.replicate mem_size freeCell
    used := 0
    head := 0
    n := 0
    rs_z := -1
    n_seq_max := n_seq_max }

/-- Modelled from the spec: `seq_rm(seq, p0, p1)` of the Recurrent State
Cache. The recurrent state for a sequence is one indivisible unit, so a
removal is representable only when it hits none of the sequence's slots
(a no-op) or all of them (whole-sequence removal); a proper sub-range hit
returns false and leaves the ledger untouched. A negative `seq` is the
all-sequences wildcard; negative position bounds are open range ends.
The occupancy counter is recomputed after a removal. -/
def seq_rm (s : RState) (q p0 p1 : Int) : Bool × RState :=
  if !(s.cells.any (rmHit q p0 p1)) then (true, s)
  else if s.cells.any (rmMiss q p0 p1) then (false, s)
  else
    let cells' := s.cells.map (fun c => if rmHit q p0 p1 c then cellRemove c q else c)
    (true, { s with cells := cells', used := countOccupied cells' })

/-- Modelled from the spec: `seq_cp(src, dst, p0, p1)` adds `dst` as a
co-referencing sequence to every cell of `src` whose position lies in the
range, creating shared ownership; copying a sequence onto itself is a
no-op. Occupancy does not change (only already-occupied cells gain a
reference). -/
def seq_cp (s : RState) (src dst p0 p1 : Int) : RState :=
  if src = dst then s
  else
    { s with cells := s.cells.map (fun c =>
        if refsSeq c src && inRange c.pos p0 p1 && !refsSeq c dst
        then { c with seqs := c.seqs ++ [dst] } else c) }

/-- Modelled from the spec: `seq_keep(seq)` drops every other sequence's
reference cache-wide; cells not referencing `seq` become free slots. -/
def seq_keep (s : RState) (q : Int) : RState :=
  let cells' := s.cells.map (fun c =>
    let s' := c.seqs.filter (fun x => decide (x = q))
    if s'.isEmpty then freeCell else { c with seqs := s' })
  { s with cells := cells', used := countOccupied cells' }

/-- Modelled from the spec: `seq_add(seq, p0, p1, shift)` adds `shift` to
the position of every cell of `seq` in the range. -/
def seq_add (s : RState) (q p0 p1 k : Int) : RState :=
  { s with cells := s.cells.map (fun c =>
      if refsSeq c q && inRange c.pos p0 p1 then { c with pos := c.pos + k } else c) }

/-- Modelled from the spec: `seq_div(seq, p0, p1, d)` integer-divides the
position of every cell of `seq` in the range by `d`. -/
def seq_div (s : RState) (q p0 p1 d : Int) : RState :=
  { s with cells := s.cells.map (fun c =>
      if refsSeq c q && inRange c.pos p0 p1 then { c with pos := c.pos / d } else c) }

/-- Modelled from the spec: `clear(erase_data)` drops all references as a
pure bookkeeping reset (the data flag only governs zeroing of the backing
tensor storage, which is not part of the ledger). -/
def clear (s : RState) (data : Bool) : RState :=
  { s with cells := List.replicate s.size freeCell
           used := 0
           head := 0
           n := 0
           rs_z := -1 }

/-- Modelled from the spec: `seq_pos_min(seq)`, the minimum position among
cells referencing `seq`, or -1 when the sequence has no cells. -/
def seq_pos_min (s : RState) (q : Int) : Int :=
  match (s.cells.filterMap (fun c => if refsSeq c q then some c.pos else none)).min? with
  | none => -1
  | some m => m

/-- Modelled from the spec: `seq_pos_max(seq)`, the maximum position among
cells referencing `seq`, or -1 when the sequence has no cells. -/
def seq_pos_max (s : RState) (q : Int) : Int :=
  match (s.cells.filterMap (fun c => if refsSeq c q then some c.pos else none)).max? with
  | none => -1
  | some m => m

end RecMem

namespace RecMem

/-- The uniform four-value outcome signal for cache operations. -/
inductive Status where
  | success
  | noUpdate
  | failedPrepare
  | failedCompute
  deriving DecidableEq, Repr

/-- Is the status one of the two failure statuses? -/
def statusFailed : Status → Bool
  | Status.failedPrepare => true
  | Status.failedCompute => true
  | _ => false

/-- A memory context as returned by the prepare entry points: its status
and the ledger capacity it reports through its size accessor. -/
structure RecCtx where
  status : Status
  ctxSize : Nat
  deriving DecidableEq, Repr

/-- Modelled from the spec: `init_full` of the Recurrent State Cache
returns a context over the whole current cache content (never allocating
new slots); its size accessor reports the cache capacity. -/
def init_full (s : RState) : Option RecCtx :=
  some { status := Status.success, ctxSize := s.size }

/-- Modelled from the spec: `init_update` of the Recurrent State Cache.
The recurrent cache has no growth and no defragmentation, so no deferred
maintenance is ever pending and the returned context always carries the
`no_update` status; the returned owning pointer is never null, modelled by
always returning `some`. -/
def init_update (s : RState) (optimize : Bool) : Option RecCtx :=
  some { status := Status.noUpdate, ctxSize := s.size }

/-- Index of the slot already owned by sequence `q`, if any. -/
def findSeqSlot (cells : List RCell) (q : Int) : Option Nat :=
  cells.findIdx? (fun c => refsSeq c q)

/-- Index of the first free slot found scanning from `start` and wrapping
around the ring, if any slot is free. -/
def findFreeFrom (cells : List RCell) (start : Nat) : Option Nat :=
  ((List.range cells.length).map (fun t => (start + t) % cells.length)).find?
    (fun j => (cells.getD j freeCell).seqs.isEmpty)

/-- Replace slot `i` and recompute the occupancy counter from the new
ledger. -/
def setCell (s : RState) (i : Nat) (c : RCell) : RState :=
  let cells' := s.cells.set i c
  { s with cells := cells', used := countOccupied cells' }

/-- Modelled from the spec: placing one token of sequence `q` at position
`p`. A sequence that already owns a slot has its state overwritten in
place (the slot position is updated); a new sequence claims the first free
slot scanning from `head` with wraparound, advancing the cursor past the
claimed slot; with no free slot left the placement fails. -/
def allocTok (s : RState) (q p : Int) : Option RState :=
  match findSeqSlot s.cells q with
  | some i => some (setCell s i { s.cells.getD i freeCell with pos := p })
  | none =>
    match findFreeFrom s.cells s.head with
    | some j => some { setCell s j { pos := p, seqs := [q] } with head := (j + 1) % s.size }
    | none => none

/-- Place every token of the proposed micro-batch, failing as a whole (with
no state retained) when any single placement fails. -/
def allocAll (s : RState) : List (Int × Int) → Option RState
  | [] => some s
  | t :: rest =>
    match allocTok s t.1 t.2 with
    | some s' => allocAll s' rest
    | none => none

/-- Modelled from the spec: `init_batch` of the Recurrent State Cache over
the tokens (sequence id, position) of one proposed micro-batch: finds a
slot for every sequence present; if capacity is insufficient it returns a
`failed_prepare` context and the ledger is left exactly as it was (prepare
performs no commits that are then kept on failure). -/
def init_batch (s : RState) (toks : List (Int × Int)) : Status × RState :=
  match allocAll s toks with
  | some s' => (Status.success, s')
  | none => (Status.failedPrepare, s)

/-- The operations a caller can drive the cache through; `batchOp` carries
the (sequence id, position) tokens of one proposed micro-batch. -/
inductive ROp where
  | clearOp (data : Bool)
  | rmOp (q p0 p1 : Int)
  | cpOp (src dst p0 p1 : Int)
  | keepOp (q : Int)
  | addOp (q p0 p1 k : Int)
  | divOp (q p0 p1 d : Int)
  | batchOp (toks : List (Int × Int))
  deriving DecidableEq, Repr

/-- One step of the cache state machine. -/
def exec (s : RState) : ROp → RState
  | ROp.clearOp d => clear s d
  | ROp.rmOp q p0 p1 => (seq_rm s q p0 p1).2
  | ROp.cpOp a b p0 p1 => seq_cp s a b p0 p1
  | ROp.keepOp q => seq_keep s q
  | ROp.addOp q p0 p1 k => seq_add s q p0 p1 k
  | ROp.divOp q p0 p1 d => seq_div s q p0 p1 d
  | ROp.batchOp toks => (init_batch s toks).2

/-- States reachable from a freshly constructed cache of positive capacity
by any sequence of caller operations. -/
inductive Reachable : RState → Prop
  | init (m k : Nat) (hm : 0 < m) : Reachable (mkRecurrent m k)
  | step {s : RState} (op : ROp) : Reachable s → Reachable (exec s op)

/-- Does the operation write tokens for (or copy cells onto) sequence `q`? -/
def writesTo (q : Int) : ROp → Bool
  | ROp.batchOp toks => toks.any (fun t => t.1 == q)
  | ROp.cpOp _ dst _ _ => dst == q
  | _ => false

/-- States reachable from a freshly constructed cache without any operation
ever writing a token for sequence `q` or copying another sequence onto it. -/
inductive ReachableAvoiding (q : Int) : RState → Prop
  | init (m k : Nat) (hm : 0 < m) : ReachableAvoiding q (mkRecurrent m k)
  | step {s : RState} (op : ROp) :
      ReachableAvoiding q s → writesTo q op = false → ReachableAvoiding q (exec s op)

end RecMem

namespace RecMem

theorem map_eq_self_of_mem {α : Type} {l : List α} {f : α → α}
    (h : ∀ a ∈ l, f a = a) : l.map f = l := by
  induction l with
  | nil => rfl
  | cons a t ih =>
    simp only [List.map_cons, h a (List.mem_cons_self a t)]
    rw [ih (fun b hb => h b (List.mem_cons_of_mem a hb))]

theorem inRange_empty (pos p : Int) (hp : 0 ≤ p) : inRange pos p p = false := by
  simp only [inRange]
  by_cases h1 : p ≤ pos
  · by_cases h2 : pos < p
    · omega
    · simp [h2, decide_eq_false (by omega : ¬(p < 0))]
  · simp [h1, decide_eq_false (by omega : ¬(p < 0))]

end RecMem

/-- C6: for every cache state, sequence id, shift, divisor, and
(non-negative, per the data model) position `p`, `seq_add(s, p, p, k)` and
`seq_div(s, p, p, d)` on the explicitly empty range `p0 = p1 = p` leave the
whole cache state — every cell included — unchanged. -/
theorem seq_shift_empty_range_noop (s : RecMem.RState) (q p k d : Int) (hp : 0 ≤ p) :
    RecMem.seq_add s q p p k = s ∧ RecMem.seq_div s q p p d = s := by
  constructor
  · show { s with cells := _ } = s
    have : s.cells.map (fun c =>
        if RecMem.refsSeq c q && RecMem.inRange c.pos p p then { c with pos := c.pos + k } else c)
        = s.cells := by
      apply RecMem.map_eq_self_of_mem
      intro c _
      rw [RecMem.inRange_empty c.pos p hp]
      simp
    simp only [RecMem.seq_add, this]
  · show { s with cells := _ } = s
    have : s.cells.map (fun c =>
        if RecMem.refsSeq c q && RecMem.inRange c.pos p p then { c with pos := c.pos / d } else c)
        = s.cells := by
      apply RecMem.map_eq_self_of_mem
      intro c _
      rw [RecMem.inRange_empty c.pos p hp]
      simp
    simp only [RecMem.seq_div, this]

/-- A small concrete occupied state used by witnesses: capacity 1, one slot
held by sequence 0 at position 5. -/
def RecMem.sampleState : RecMem.RState :=
  { size := 1, cells := [{ pos := 5, seqs := [0] }], used := 1, head := 0,
    n := 0, rs_z := -1, n_seq_max := 4 }

/-- Witness for C6 at a concrete occupied state, position 5, shift 3,
divisor 2. -/
theorem seq_shift_empty_range_noop_witness :
    RecMem.seq_add RecMem.sampleState 0 5 5 3 = RecMem.sampleState ∧
    RecMem.seq_div RecMem.sampleState 0 5 5 2 = RecMem.sampleState :=
  seq_shift_empty_range_noop RecMem.sampleState 0 5 3 2 (by decide)

/-- C8: for every state of the Recurrent State Cache (which never has
deferred maintenance pending: it performs no defragmentation and no
cache-type conversion), `init_update` returns a non-null context whose
status is `no_update` — a status distinct from `success` and not a failure
status. -/
theorem init_update_no_update (s : RecMem.RState) (opt : Bool) :
    ∃ c : RecMem.RecCtx, RecMem.init_update s opt = some c ∧
      c.status = RecMem.Status.noUpdate ∧
      c.status ≠ RecMem.Status.success ∧
      RecMem.statusFailed c.status = false := by
  refine ⟨{ status := RecMem.Status.noUpdate, ctxSize := s.size }, rfl, rfl, ?_, rfl⟩
  intro h
  exact RecMem.Status.noConfusion h

/-- C10: a freshly constructed Recurrent State Cache of capacity `m` has
`size = m`, `used = 0`, `head = 0`, `n = 0`, and `rs_z = -1` (no slot yet
reserved as the shared zero-state template), and the context returned by
its `init_full` reports a size equal to that same capacity. -/
theorem fresh_recurrent_state (m k : Nat) :
    (RecMem.mkRecurrent m k).size = m ∧
    (RecMem.mkRecurrent m k).used = 0 ∧
    (RecMem.mkRecurrent m k).head = 0 ∧
    (RecMem.mkRecurrent m k).n = 0 ∧
    (RecMem.mkRecurrent m k).rs_z = -1 ∧
    ∃ c : RecMem.RecCtx, RecMem.init_full (RecMem.mkRecurrent m k) = some c ∧
      c.status = RecMem.Status.success ∧ c.ctxSize = m :=
  ⟨rfl, rfl, rfl, rfl, rfl,
   ⟨{ status := RecMem.Status.success, ctxSize := m }, rfl, rfl, rfl⟩⟩

namespace RecMem

theorem seq_rm_no_hit (s : RState) (q p0 p1 : Int)
    (h : s.cells.any (rmHit q p0 p1) = false) : seq_rm s q p0 p1 = (true, s) := by
  unfold seq_rm
  simp [h]

theorem seq_rm_partial_hit (s : RState) (q p0 p1 : Int)
    (h1 : s.cells.any (rmHit q p0 p1) = true)
    (h2 : s.cells.any (rmMiss q p0 p1) = true) : seq_rm s q p0 p1 = (false, s) := by
  unfold seq_rm
  simp [h1, h2]

theorem seq_rm_full_hit (s : RState) (q p0 p1 : Int)
    (h1 : s.cells.any (rmHit q p0 p1) = true)
    (h2 : s.cells.any (rmMiss q p0 p1) = false) :
    seq_rm s q p0 p1 =
      (true, { s with
        cells := s.cells.map (fun c => if rmHit q p0 p1 c then cellRemove c q else c)
        used := countOccupied
          (s.cells.map (fun c => if rmHit q p0 p1 c then cellRemove c q else c)) }) := by
  unfold seq_rm
  simp [h1, h2]

theorem cellMatches_freeCell (q : Int) : cellMatches freeCell q = false := by
  unfold cellMatches freeCell refsSeq
  by_cases hq : q < 0 <;> simp [hq]

theorem cellMatches_cellRemove (c : RCell) (q : Int) :
    cellMatches (cellRemove c q) q = false := by
  unfold cellRemove
  by_cases hq : q < 0
  · rw [if_pos hq]
    exact cellMatches_freeCell q
  · rw [if_neg hq]
    by_cases he : (c.seqs.filter (fun x => decide (x ≠ q))).isEmpty = true
    · rw [if_pos he]
      exact cellMatches_freeCell q
    · rw [if_neg he]
      unfold cellMatches
      rw [if_neg hq]
      unfold refsSeq
      simp only [decide_eq_false_iff_not]
      intro hmem
      have hdec := (List.mem_filter.1 hmem).2
      simp at hdec

theorem rmHit_after_remove (s : RState) (q p0 p1 : Int) :
    ((s.cells.map (fun c => if rmHit q p0 p1 c then cellRemove c q else c)).any
      (rmHit q p0 p1)) = false := by
  rw [List.any_eq_false]
  intro c' hc'
  obtain ⟨c, _, rfl⟩ := List.mem_map.1 hc'
  by_cases hhit : rmHit q p0 p1 c = true
  · rw [if_pos hhit]
    unfold rmHit
    rw [cellMatches_cellRemove]
    simp
  · rw [if_neg hhit]
    simpa using hhit

end RecMem

/-- C4: for every cache state (in particular every reachable one), every
sequence argument and every range, running `seq_rm(s, p0, p1)` twice in a
row yields the same ledger state as running it once: a refused removal
leaves the state untouched both times, and a performed removal leaves no
matching cell in range for the second call to act on. -/
theorem seq_rm_idempotent (s : RecMem.RState) (q p0 p1 : Int) :
    (RecMem.seq_rm (RecMem.seq_rm s q p0 p1).2 q p0 p1).2 = (RecMem.seq_rm s q p0 p1).2 := by
  by_cases h1 : s.cells.any (RecMem.rmHit q p0 p1) = true
  · by_cases h2 : s.cells.any (RecMem.rmMiss q p0 p1) = true
    · have e := RecMem.seq_rm_partial_hit s q p0 p1 h1 h2
      rw [e]
      show (RecMem.seq_rm s q p0 p1).2 = s
      rw [e]
    · have h2' : s.cells.any (RecMem.rmMiss q p0 p1) = false := by
        simpa using h2
      have e := RecMem.seq_rm_full_hit s q p0 p1 h1 h2'
      have hcells : (RecMem.seq_rm s q p0 p1).2.cells =
          s.cells.map (fun c => if RecMem.rmHit q p0 p1 c then RecMem.cellRemove c q else c) := by
        rw [e]
      have hno : (RecMem.seq_rm s q p0 p1).2.cells.any (RecMem.rmHit q p0 p1) = false := by
        rw [hcells]
        exact RecMem.rmHit_after_remove s q p0 p1
      rw [RecMem.seq_rm_no_hit _ q p0 p1 hno]
  · have h1' : s.cells.any (RecMem.rmHit q p0 p1) = false := by
      simpa using h1
    have e := RecMem.seq_rm_no_hit s q p0 p1 h1'
    rw [e]
    show (RecMem.seq_rm s q p0 p1).2 = s
    rw [e]

namespace RecMem

theorem rmHit_iff (q p0 p1 : Int) (c : RCell) :
    rmHit q p0 p1 c = true ↔
      (cellMatches c q = true ∧ inRange c.pos p0 p1 = true) := by
  unfold rmHit
  cases hcm : cellMatches c q <;> cases hir : inRange c.pos p0 p1 <;> simp

theorem rmMiss_iff (q p0 p1 : Int) (c : RCell) :
    rmMiss q p0 p1 c = true ↔
      (cellMatches c q = true ∧ inRange c.pos p0 p1 = false) := by
  unfold rmMiss
  cases hcm : cellMatches c q <;> cases hir : inRange c.pos p0 p1 <;> simp

end RecMem

/-- C7: `seq_rm(seq, p0, p1)` on the Recurrent State Cache returns false
exactly when the requested removal cannot be represented at slot
granularity — some cell matching the sequence argument lies inside the
requested range while another matching cell lies outside it (a proper
sub-range removal of an existing state); in every other case it returns
true, and in particular it is a no-op returning true (with the state
unchanged) whenever the target sequence or range is absent from the
cache. -/
theorem seq_rm_result (s : RecMem.RState) (q p0 p1 : Int) :
    ((RecMem.seq_rm s q p0 p1).1 = false ↔
      ((∃ c ∈ s.cells, RecMem.cellMatches c q = true ∧ RecMem.inRange c.pos p0 p1 = true) ∧
       (∃ c ∈ s.cells, RecMem.cellMatches c q = true ∧ RecMem.inRange c.pos p0 p1 = false))) ∧
    ((∀ c ∈ s.cells, ¬(RecMem.cellMatches c q = true ∧ RecMem.inRange c.pos p0 p1 = true)) →
      RecMem.seq_rm s q p0 p1 = (true, s)) := by
  constructor
  · constructor
    · intro hfalse
      by_cases h1 : s.cells.any (RecMem.rmHit q p0 p1) = true
      · by_cases h2 : s.cells.any (RecMem.rmMiss q p0 p1) = true
        · constructor
          · obtain ⟨c, hc, hp⟩ := List.any_eq_true.1 h1
            exact ⟨c, hc, (RecMem.rmHit_iff q p0 p1 c).1 hp⟩
          · obtain ⟨c, hc, hp⟩ := List.any_eq_true.1 h2
            exact ⟨c, hc, (RecMem.rmMiss_iff q p0 p1 c).1 hp⟩
        · rw [RecMem.seq_rm_full_hit s q p0 p1 h1 (by simpa using h2)] at hfalse
          simp at hfalse
      · rw [RecMem.seq_rm_no_hit s q p0 p1 (by simpa using h1)] at hfalse
        simp at hfalse
    · rintro ⟨⟨c1, hc1, hm1, hr1⟩, ⟨c2, hc2, hm2, hr2⟩⟩
      have h1 : s.cells.any (RecMem.rmHit q p0 p1) = true :=
        List.any_eq_true.2 ⟨c1, hc1, (RecMem.rmHit_iff q p0 p1 c1).2 ⟨hm1, hr1⟩⟩
      have h2 : s.cells.any (RecMem.rmMiss q p0 p1) = true :=
        List.any_eq_true.2 ⟨c2, hc2, (RecMem.rmMiss_iff q p0 p1 c2).2 ⟨hm2, hr2⟩⟩
      rw [RecMem.seq_rm_partial_hit s q p0 p1 h1 h2]
  · intro habs
    have h1 : s.cells.any (RecMem.rmHit q p0 p1) = false := by
      rw [List.any_eq_false]
      intro c hc hp
      exact habs c hc ((RecMem.rmHit_iff q p0 p1 c).1 hp)
    exact RecMem.seq_rm_no_hit s q p0 p1 h1

/-- Witness for C7: on a concrete occupied state, a removal request over
the range [7, 9) that touches no cell of sequence 0 (whose only cell sits
at position 5) is a no-op returning true, and the refusal
characterization holds at that instance. -/
theorem seq_rm_result_witness :
    ((RecMem.seq_rm RecMem.sampleState 0 7 9).1 = false ↔
      ((∃ c ∈ RecMem.sampleState.cells,
          RecMem.cellMatches c 0 = true ∧ RecMem.inRange c.pos 7 9 = true) ∧
       (∃ c ∈ RecMem.sampleState.cells,
          RecMem.cellMatches c 0 = true ∧ RecMem.inRange c.pos 7 9 = false))) ∧
    RecMem.seq_rm RecMem.sampleState 0 7 9 = (true, RecMem.sampleState) :=
  ⟨(seq_rm_result RecMem.sampleState 0 7 9).1,
   (seq_rm_result RecMem.sampleState 0 7 9).2 (by decide)⟩

namespace RecMem

/-- The bookkeeping invariant of §3: the ledger has exactly `size` slots,
the occupancy counter equals the number of occupied slots, and the
free-scan cursor lies within `[0, size)` (capacity is positive at
construction). -/
def Inv (s : RState) : Prop :=
  s.cells.length = s.size ∧ s.used = countOccupied s.cells ∧ s.head < s.size ∧ 0 < s.size

theorem countOccupied_le_length (cs : List RCell) : countOccupied cs ≤ cs.length :=
  List.countP_le_length _

theorem countOccupied_replicate_free (n : Nat) :
    countOccupied (List.replicate n freeCell) = 0 := by
  induction n with
  | zero => rfl
  | succ k ih =>
    rw [List.replicate_succ]
    simp only [countOccupied, List.countP_cons] at ih ⊢
    simp [ih, freeCell]

theorem countOccupied_map_pres (l : List RCell) (f : RCell → RCell)
    (h : ∀ c ∈ l, (f c).seqs.isEmpty = c.seqs.isEmpty) :
    countOccupied (l.map f) = countOccupied l := by
  induction l with
  | nil => rfl
  | cons a t ih =>
    simp only [List.map_cons, countOccupied, List.countP_cons] at ih ⊢
    rw [h a (List.mem_cons_self a t), ih (fun b hb => h b (List.mem_cons_of_mem a hb))]

theorem inv_mkRecurrent (m k : Nat) (hm : 0 < m) : Inv (mkRecurrent m k) :=
  ⟨by simp [mkRecurrent], by simp [mkRecurrent, countOccupied_replicate_free],
   by simpa [mkRecurrent] using hm, hm⟩

theorem inv_clear (s : RState) (d : Bool) (h : Inv s) : Inv (clear s d) :=
  ⟨by simp [clear], by simp [clear, countOccupied_replicate_free],
   h.2.2.2, h.2.2.2⟩

theorem inv_seq_rm (s : RState) (q p0 p1 : Int) (h : Inv s) :
    Inv (seq_rm s q p0 p1).2 := by
  by_cases h1 : s.cells.any (rmHit q p0 p1) = true
  · by_cases h2 : s.cells.any (rmMiss q p0 p1) = true
    · rw [seq_rm_partial_hit s q p0 p1 h1 h2]
      exact h
    · rw [seq_rm_full_hit s q p0 p1 h1 (by simpa using h2)]
      exact ⟨by simpa using h.1, rfl, h.2.2.1, h.2.2.2⟩
  · rw [seq_rm_no_hit s q p0 p1 (by simpa using h1)]
    exact h

theorem inv_seq_cp (s : RState) (src dst p0 p1 : Int) (h : Inv s) :
    Inv (seq_cp s src dst p0 p1) := by
  unfold seq_cp
  by_cases hsd : src = dst
  · rw [if_pos hsd]
    exact h
  · rw [if_neg hsd]
    obtain ⟨hlen, hused, hhead, hsz⟩ := h
    refine ⟨by simpa using hlen, ?_, hhead, hsz⟩
    rw [hused]
    symm
    apply countOccupied_map_pres
    intro c _
    by_cases hg : (refsSeq c src && inRange c.pos p0 p1 && !refsSeq c dst) = true
    · rw [if_pos hg]
      simp only [Bool.and_eq_true] at hg
      have ha : src ∈ c.seqs := by
        have := hg.1.1
        unfold refsSeq at this
        exact of_decide_eq_true this
      have hne : c.seqs ≠ [] := List.ne_nil_of_mem ha
      show (c.seqs ++ [dst]).isEmpty = c.seqs.isEmpty
      cases hcs : c.seqs with
      | nil => exact absurd hcs hne
      | cons a t => simp
    · rw [if_neg hg]

theorem inv_seq_keep (s : RState) (q : Int) (h : Inv s) : Inv (seq_keep s q) :=
  ⟨by simpa [seq_keep] using h.1, rfl, h.2.2.1, h.2.2.2⟩

theorem inv_seq_add (s : RState) (q p0 p1 k : Int) (h : Inv s) :
    Inv (seq_add s q p0 p1 k) := by
  obtain ⟨hlen, hused, hhead, hsz⟩ := h
  unfold Inv seq_add
  dsimp only
  refine ⟨by simpa using hlen, ?_, hhead, hsz⟩
  rw [hused]
  symm
  apply countOccupied_map_pres
  intro c _
  by_cases hg : (refsSeq c q && inRange c.pos p0 p1) = true
  · rw [if_pos hg]
  · rw [if_neg hg]

theorem inv_seq_div (s : RState) (q p0 p1 d : Int) (h : Inv s) :
    Inv (seq_div s q p0 p1 d) := by
  obtain ⟨hlen, hused, hhead, hsz⟩ := h
  unfold Inv seq_div
  dsimp only
  refine ⟨by simpa using hlen, ?_, hhead, hsz⟩
  rw [hused]
  symm
  apply countOccupied_map_pres
  intro c _
  by_cases hg : (refsSeq c q && inRange c.pos p0 p1) = true
  · rw [if_pos hg]
  · rw [if_neg hg]

theorem inv_setCell (s : RState) (i : Nat) (c : RCell) (h : Inv s) :
    Inv (setCell s i c) :=
  ⟨by simpa [setCell] using h.1, rfl, h.2.2.1, h.2.2.2⟩

theorem inv_allocTok (s : RState) (q p : Int) (h : Inv s) (s' : RState)
    (he : allocTok s q p = some s') : Inv s' := by
  unfold allocTok at he
  cases hfs : findSeqSlot s.cells q with
  | some i =>
    rw [hfs] at he
    simp only [Option.some.injEq] at he
    subst he
    exact inv_setCell s i _ h
  | none =>
    rw [hfs] at he
    cases hff : findFreeFrom s.cells s.head with
    | some j =>
      rw [hff] at he
      simp only [Option.some.injEq] at he
      subst he
      have base := inv_setCell s j { pos := p, seqs := [q] } h
      exact ⟨base.1, base.2.1, Nat.mod_lt _ h.2.2.2, h.2.2.2⟩
    | none =>
      rw [hff] at he
      exact absurd he (by simp)

theorem inv_allocAll (toks : List (Int × Int)) :
    ∀ s s' : RState, Inv s → allocAll s toks = some s' → Inv s' := by
  induction toks with
  | nil =>
    intro s s' h he
    unfold allocAll at he
    simp only [Option.some.injEq] at he
    subst he
    exact h
  | cons t rest ih =>
    intro s s' h he
    unfold allocAll at he
    cases hat : allocTok s t.1 t.2 with
    | some s1 =>
      rw [hat] at he
      exact ih s1 s' (inv_allocTok s t.1 t.2 h s1 hat) he
    | none =>
      rw [hat] at he
      exact absurd he (by simp)

theorem inv_init_batch (s : RState) (toks : List (Int × Int)) (h : Inv s) :
    Inv (init_batch s toks).2 := by
  unfold init_batch
  cases ha : allocAll s toks with
  | some s' =>
    exact inv_allocAll toks s s' h ha
  | none =>
    exact h

theorem inv_exec (s : RState) (op : ROp) (h : Inv s) : Inv (exec s op) := by
  cases op with
  | clearOp d => exact inv_clear s d h
  | rmOp q p0 p1 => exact inv_seq_rm s q p0 p1 h
  | cpOp a b p0 p1 => exact inv_seq_cp s a b p0 p1 h
  | keepOp q => exact inv_seq_keep s q h
  | addOp q p0 p1 k => exact inv_seq_add s q p0 p1 k h
  | divOp q p0 p1 d => exact inv_seq_div s q p0 p1 d h
  | batchOp toks => exact inv_init_batch s toks h

theorem reachable_inv (s : RState) (h : Reachable s) : Inv s := by
  induction h with
  | init m k hm => exact inv_mkRecurrent m k hm
  | step op _ ih => exact inv_exec _ op ih

end RecMem

/-- C5: in every state reachable by any sequence of caller operations
(including any `init_batch` call, whether it commits or fails), the
occupancy counter satisfies `used ≤ size` and the free-scan cursor `head`
lies within `[0, size)`; and a freshly constructed cache has `used = 0`
and `head = 0`. -/
theorem capacity_invariant (s : RecMem.RState) (h : RecMem.Reachable s) :
    (s.used ≤ s.size ∧ s.head < s.size) ∧
    (∀ m k : Nat, (RecMem.mkRecurrent m k).used = 0 ∧ (RecMem.mkRecurrent m k).head = 0) := by
  obtain ⟨hlen, hused, hhead, _⟩ := RecMem.reachable_inv s h
  refine ⟨⟨?_, hhead⟩, fun m k => ⟨rfl, rfl⟩⟩
  rw [hused, ← hlen]
  exact RecMem.countOccupied_le_length s.cells

/-- Witness for C5: the state reached from a fresh capacity-3 cache by one
committed micro-batch of two sequences followed by a wildcard removal. -/
theorem capacity_invariant_witness :
    ((RecMem.exec (RecMem.exec (RecMem.mkRecurrent 3 2) (RecMem.ROp.batchOp [(0, 0), (1, 0)]))
        (RecMem.ROp.rmOp 1 (-1) (-1))).used ≤
      (RecMem.exec (RecMem.exec (RecMem.mkRecurrent 3 2) (RecMem.ROp.batchOp [(0, 0), (1, 0)]))
        (RecMem.ROp.rmOp 1 (-1) (-1))).size ∧
     (RecMem.exec (RecMem.exec (RecMem.mkRecurrent 3 2) (RecMem.ROp.batchOp [(0, 0), (1, 0)]))
        (RecMem.ROp.rmOp 1 (-1) (-1))).head <
      (RecMem.exec (RecMem.exec (RecMem.mkRecurrent 3 2) (RecMem.ROp.batchOp [(0, 0), (1, 0)]))
        (RecMem.ROp.rmOp 1 (-1) (-1))).size) ∧
    (∀ m k : Nat, (RecMem.mkRecurrent m k).used = 0 ∧ (RecMem.mkRecurrent m k).head = 0) :=
  capacity_invariant _
    (RecMem.Reachable.step (RecMem.ROp.rmOp 1 (-1) (-1))
      (RecMem.Reachable.step (RecMem.ROp.batchOp [(0, 0), (1, 0)])
        (RecMem.Reachable.init 3 2 (by decide))))

namespace RecMem

/-- Sequence `q` is referenced by no cell of the ledger. -/
def NoRef (q : Int) (s : RState) : Prop :=
  ∀ c ∈ s.cells, refsSeq c q = false

theorem refsSeq_freeCell (q : Int) : refsSeq freeCell q = false := by
  simp [refsSeq, freeCell]

theorem refsSeq_cellRemove (c : RCell) (q' q : Int) (h : refsSeq c q = false) :
    refsSeq (cellRemove c q') q = false := by
  unfold cellRemove
  by_cases hq' : q' < 0
  · rw [if_pos hq']
    exact refsSeq_freeCell q
  · rw [if_neg hq']
    by_cases he : (c.seqs.filter (fun x => decide (x ≠ q'))).isEmpty = true
    · rw [if_pos he]
      exact refsSeq_freeCell q
    · rw [if_neg he]
      unfold refsSeq at h ⊢
      simp only [decide_eq_false_iff_not] at h ⊢
      intro hmem
      exact h (List.mem_filter.1 hmem).1

theorem noref_mkRecurrent (q : Int) (m k : Nat) : NoRef q (mkRecurrent m k) := by
  intro c hc
  rw [(List.mem_replicate.1 hc).2]
  exact refsSeq_freeCell q

theorem noref_clear (s : RState) (d : Bool) (q : Int) : NoRef q (clear s d) := by
  intro c hc
  rw [(List.mem_replicate.1 hc).2]
  exact refsSeq_freeCell q

theorem noref_seq_rm (s : RState) (q' p0 p1 q : Int) (h : NoRef q s) :
    NoRef q (seq_rm s q' p0 p1).2 := by
  by_cases h1 : s.cells.any (rmHit q' p0 p1) = true
  · by_cases h2 : s.cells.any (rmMiss q' p0 p1) = true
    · rw [seq_rm_partial_hit s q' p0 p1 h1 h2]
      exact h
    · rw [seq_rm_full_hit s q' p0 p1 h1 (by simpa using h2)]
      intro c' hc'
      obtain ⟨c, hc, rfl⟩ := List.mem_map.1 hc'
      by_cases hhit : rmHit q' p0 p1 c = true
      · rw [if_pos hhit]
        exact refsSeq_cellRemove c q' q (h c hc)
      · rw [if_neg hhit]
        exact h c hc
  · rw [seq_rm_no_hit s q' p0 p1 (by simpa using h1)]
    exact h

theorem noref_seq_cp (s : RState) (src dst p0 p1 q : Int) (hdst : dst ≠ q)
    (h : NoRef q s) : NoRef q (seq_cp s src dst p0 p1) := by
  unfold seq_cp
  by_cases hsd : src = dst
  · rw [if_pos hsd]
    exact h
  · rw [if_neg hsd]
    intro c' hc'
    obtain ⟨c, hc, rfl⟩ := List.mem_map.1 hc'
    by_cases hg : (refsSeq c src && inRange c.pos p0 p1 && !refsSeq c dst) = true
    · rw [if_pos hg]
      have hnc : refsSeq c q = false := h c hc
      unfold refsSeq at hnc ⊢
      simp only [decide_eq_false_iff_not] at hnc ⊢
      intro hmem
      rcases List.mem_append.1 hmem with hl | hr
      · exact hnc hl
      · exact hdst (List.mem_singleton.1 hr).symm
    · rw [if_neg hg]
      exact h c hc

theorem noref_seq_keep (s : RState) (r q : Int) (h : NoRef q s) :
    NoRef q (seq_keep s r) := by
  intro c' hc'
  obtain ⟨c, hc, rfl⟩ := List.mem_map.1 hc'
  by_cases he : (c.seqs.filter (fun x => decide (x = r))).isEmpty = true
  · rw [if_pos he]
    exact refsSeq_freeCell q
  · rw [if_neg he]
    have hnc : refsSeq c q = false := h c hc
    unfold refsSeq at hnc ⊢
    simp only [decide_eq_false_iff_not] at hnc ⊢
    intro hmem
    exact hnc (List.mem_filter.1 hmem).1

theorem noref_seq_add (s : RState) (q' p0 p1 k q : Int) (h : NoRef q s) :
    NoRef q (seq_add s q' p0 p1 k) := by
  intro c' hc'
  obtain ⟨c, hc, rfl⟩ := List.mem_map.1 hc'
  by_cases hg : (refsSeq c q' && inRange c.pos p0 p1) = true
  · rw [if_pos hg]
    exact h c hc
  · rw [if_neg hg]
    exact h c hc

theorem noref_seq_div (s : RState) (q' p0 p1 d q : Int) (h : NoRef q s) :
    NoRef q (seq_div s q' p0 p1 d) := by
  intro c' hc'
  obtain ⟨c, hc, rfl⟩ := List.mem_map.1 hc'
  by_cases hg : (refsSeq c q' && inRange c.pos p0 p1) = true
  · rw [if_pos hg]
    exact h c hc
  · rw [if_neg hg]
    exact h c hc

theorem getD_mem_or_eq (l : List RCell) (i : Nat) (d : RCell) :
    l.getD i d ∈ l ∨ l.getD i d = d := by
  induction l generalizing i with
  | nil =>
    right
    simp [List.getD]
  | cons a t ih =>
    cases i with
    | zero =>
      left
      rw [List.getD_cons_zero]
      exact List.mem_cons_self a t
    | succ n =>
      rcases ih n with hm | he
      · left
        rw [List.getD_cons_succ]
        exact List.mem_cons_of_mem a hm
      · right
        rw [List.getD_cons_succ]
        exact he

theorem noref_allocTok (s : RState) (q' p q : Int) (hq : q' ≠ q) (h : NoRef q s)
    (s' : RState) (he : allocTok s q' p = some s') : NoRef q s' := by
  unfold allocTok at he
  cases hfs : findSeqSlot s.cells q' with
  | some i =>
    rw [hfs] at he
    simp only [Option.some.injEq] at he
    subst he
    intro c' hc'
    rcases List.mem_or_eq_of_mem_set hc' with hmem | rfl
    · exact h c' hmem
    · show refsSeq { s.cells.getD i freeCell with pos := p } q = false
      have hbase : refsSeq (s.cells.getD i freeCell) q = false := by
        rcases getD_mem_or_eq s.cells i freeCell with hm | hedef
        · exact h _ hm
        · rw [hedef]
          exact refsSeq_freeCell q
      exact hbase
  | none =>
    rw [hfs] at he
    cases hff : findFreeFrom s.cells s.head with
    | some j =>
      rw [hff] at he
      simp only [Option.some.injEq] at he
      subst he
      intro c' hc'
      rcases List.mem_or_eq_of_mem_set hc' with hmem | rfl
      · exact h c' hmem
      · show refsSeq { pos := p, seqs := [q'] } q = false
        unfold refsSeq
        simp only [decide_eq_false_iff_not, List.mem_singleton]
        intro heq
        exact hq heq.symm
    | none =>
      rw [hff] at he
      exact absurd he (by simp)

theorem noref_allocAll (q : Int) (toks : List (Int × Int)) :
    ∀ s s' : RState, NoRef q s → (∀ t ∈ toks, t.1 ≠ q) →
      allocAll s toks = some s' → NoRef q s' := by
  induction toks with
  | nil =>
    intro s s' h _ he
    unfold allocAll at he
    simp only [Option.some.injEq] at he
    subst he
    exact h
  | cons t rest ih =>
    intro s s' h hw he
    unfold allocAll at he
    cases hat : allocTok s t.1 t.2 with
    | some s1 =>
      rw [hat] at he
      exact ih s1 s'
        (noref_allocTok s t.1 t.2 q (hw t (List.mem_cons_self t rest)) h s1 hat)
        (fun u hu => hw u (List.mem_cons_of_mem t hu)) he
    | none =>
      rw [hat] at he
      exact absurd he (by simp)

theorem noref_init_batch (s : RState) (toks : List (Int × Int)) (q : Int)
    (h : NoRef q s) (hw : toks.any (fun t => t.1 == q) = false) :
    NoRef q (init_batch s toks).2 := by
  have hw' : ∀ t ∈ toks, t.1 ≠ q := by
    intro t ht
    have := List.any_eq_false.1 hw t ht
    simpa using this
  unfold init_batch
  cases ha : allocAll s toks with
  | some s' => exact noref_allocAll q toks s s' h hw' ha
  | none => exact h

theorem noref_exec (q : Int) (s : RState) (op : ROp) (h : NoRef q s)
    (hw : writesTo q op = false) : NoRef q (exec s op) := by
  cases op with
  | clearOp d => exact noref_clear s d q
  | rmOp q' p0 p1 => exact noref_seq_rm s q' p0 p1 q h
  | cpOp a b p0 p1 =>
    have hb : b ≠ q := by
      unfold writesTo at hw
      simpa using hw
    exact noref_seq_cp s a b p0 p1 q hb h
  | keepOp r => exact noref_seq_keep s r q h
  | addOp q' p0 p1 k => exact noref_seq_add s q' p0 p1 k q h
  | divOp q' p0 p1 d => exact noref_seq_div s q' p0 p1 d q h
  | batchOp toks =>
    unfold writesTo at hw
    exact noref_init_batch s toks q h hw

theorem reachable_avoiding_noref (q : Int) (s : RState) (h : ReachableAvoiding q s) :
    NoRef q s := by
  induction h with
  | init m k hm => exact noref_mkRecurrent q m k
  | step op _ hw ih => exact noref_exec q _ op ih hw

theorem seq_pos_filterMap_nil (s : RState) (q : Int) (h : NoRef q s) :
    s.cells.filterMap (fun c => if refsSeq c q then some c.pos else none) = [] := by
  rw [List.filterMap_eq_nil_iff]
  intro c hc
  rw [h c hc]
  simp

end RecMem

/-- C3: for every sequence id `q` (including ids larger than any live
sequence) in every state reachable without any token ever being written
for `q` (no committed micro-batch carrying `q` and no copy onto `q`),
`seq_pos_min` and `seq_pos_max` both return -1, distinguishing a
non-existent sequence from one that exists with position 0. -/
theorem seq_pos_bounds_unwritten (q : Int) (s : RecMem.RState)
    (h : RecMem.ReachableAvoiding q s) :
    RecMem.seq_pos_min s q = -1 ∧ RecMem.seq_pos_max s q = -1 := by
  have hnil := RecMem.seq_pos_filterMap_nil s q (RecMem.reachable_avoiding_noref q s h)
  constructor
  · unfold RecMem.seq_pos_min
    rw [hnil]
    rfl
  · unfold RecMem.seq_pos_max
    rw [hnil]
    rfl

/-- Witness for C3: sequence 999 was never written in a trace that writes
a token for sequence 0, copies it to sequence 1, and removes a range;
both position bounds of sequence 999 report -1 there. -/
theorem seq_pos_bounds_unwritten_witness :
    RecMem.seq_pos_min
      (RecMem.exec (RecMem.exec (RecMem.exec (RecMem.mkRecurrent 2 2)
        (RecMem.ROp.batchOp [(0, 0)])) (RecMem.ROp.cpOp 0 1 (-1) (-1)))
        (RecMem.ROp.rmOp 0 (-1) (-1))) 999 = -1 ∧
    RecMem.seq_pos_max
      (RecMem.exec (RecMem.exec (RecMem.exec (RecMem.mkRecurrent 2 2)
        (RecMem.ROp.batchOp [(0, 0)])) (RecMem.ROp.cpOp 0 1 (-1) (-1)))
        (RecMem.ROp.rmOp 0 (-1) (-1))) 999 = -1 :=
  seq_pos_bounds_unwritten 999 _
    (RecMem.ReachableAvoiding.step (RecMem.ROp.rmOp 0 (-1) (-1))
      (RecMem.ReachableAvoiding.step (RecMem.ROp.cpOp 0 1 (-1) (-1))
        (RecMem.ReachableAvoiding.step (RecMem.ROp.batchOp [(0, 0)])
          (RecMem.ReachableAvoiding.init 2 2 (by decide)) (by decide))
        (by decide))
      (by decide))

namespace BatchSplit

/-- The micro-batch as produced by `MockBatchAllocr`: the C++ test zeroes
the whole `llama_ubatch` value and only ever sets `n_tokens`, so the token
count is the one observable field. -/
structure MockUbatch where
  n_tokens : Nat
  deriving DecidableEq, Repr

/-- State of `MockBatchAllocr` (`part_005`): the total token count of the
input batch and the number of tokens consumed so far. -/
structure MockBatchAllocr where
  n_tokens : Nat
  n_used : Nat
  deriving DecidableEq, Repr

/-- `MockBatchAllocr::split_simple` (`part_005`, lines 136-143): while
tokens remain, return the next contiguous chunk of
`min n_ubatch (n_tokens - n_used)` tokens and advance the consumption
counter; once everything is consumed, return an empty micro-batch and
leave the state untouched. -/
def split_simple (a : MockBatchAllocr) (n_ubatch : Nat) : MockUbatch × MockBatchAllocr :=
  if a.n_used < a.n_tokens then
    ({ n_tokens := min n_ubatch (a.n_tokens - a.n_used) },
     { a with n_used := a.n_used + min n_ubatch (a.n_tokens - a.n_used) })
  else
    ({ n_tokens := 0 }, a)

/-- `MockBatchAllocr::split_equal` (`part_005`, lines 145-148): ignores the
`force_equal` flag and delegates to `split_simple`. -/
def split_equal (a : MockBatchAllocr) (n_ubatch : Nat) (force_equal : Bool) :
    MockUbatch × MockBatchAllocr :=
  split_simple a n_ubatch

end BatchSplit

/-- C9: each `split_simple` call returns at most `n_ubatch` tokens, taken
contiguously (the consumption counter advances by exactly the returned
token count); and once all tokens of the batch are consumed, every
subsequent `split_simple` or `split_equal` call returns an empty
micro-batch with `n_tokens = 0` and leaves the splitter state unchanged
(so all further calls stay empty). -/
theorem split_exhaustion_and_bound (a : BatchSplit.MockBatchAllocr) (n m : Nat) (f : Bool) :
    (BatchSplit.split_simple a n).1.n_tokens ≤ n ∧
    (BatchSplit.split_simple a n).2.n_used = a.n_used + (BatchSplit.split_simple a n).1.n_tokens ∧
    (a.n_tokens ≤ a.n_used →
      (BatchSplit.split_simple a n).1.n_tokens = 0 ∧
      (BatchSplit.split_simple a n).2 = a ∧
      (BatchSplit.split_equal a m f).1.n_tokens = 0 ∧
      (BatchSplit.split_equal a m f).2 = a) := by
  unfold BatchSplit.split_equal BatchSplit.split_simple
  by_cases hrem : a.n_used < a.n_tokens
  · rw [if_pos hrem, if_pos hrem]
    exact ⟨Nat.min_le_left _ _, rfl, fun hdone => absurd hrem (Nat.not_lt.2 hdone)⟩
  · rw [if_neg hrem, if_neg hrem]
    exact ⟨Nat.zero_le n, rfl, fun _ => ⟨rfl, rfl, rfl, rfl⟩⟩

/-- Witness for C9: a splitter that has consumed its whole 5-token batch
returns empty micro-batches from both entry points without altering its
state, and the per-call bound holds. -/
theorem split_exhaustion_and_bound_witness :
    (BatchSplit.split_simple { n_tokens := 5, n_used := 5 } 3).1.n_tokens ≤ 3 ∧
    (BatchSplit.split_simple { n_tokens := 5, n_used := 5 } 3).2.n_used =
      (5 : Nat) + (BatchSplit.split_simple { n_tokens := 5, n_used := 5 } 3).1.n_tokens ∧
    ((BatchSplit.split_simple { n_tokens := 5, n_used := 5 } 3).1.n_tokens = 0 ∧
     (BatchSplit.split_simple { n_tokens := 5, n_used := 5 } 3).2 =
       { n_tokens := 5, n_used := 5 } ∧
     (BatchSplit.split_equal { n_tokens := 5, n_used := 5 } 2 true).1.n_tokens = 0 ∧
     (BatchSplit.split_equal { n_tokens := 5, n_used := 5 } 2 true).2 =
       { n_tokens := 5, n_used := 5 }) :=
  have h := split_exhaustion_and_bound { n_tokens := 5, n_used := 5 } 3 2 true
  ⟨h.1, h.2.1, h.2.2 (by decide)⟩
